import Mathlib

/-!
Verification of the CTC lexicon decoder post-processing and configuration
logic of `asr4.recognizer_v1.runtime.w2l_decoder` (class `W2lKenLMDecoder`),
as a shallow embedding in Lean 4.

Modelling conventions:
* Python floats are modelled as rationals (`ℚ`);
* token indices and frame indices are `ℕ`, word ids are `ℤ`
  (the decoder emits negative ids for non-words, filtered by `x >= 0`);
* strings handled character-wise (sub-word assembly) are `List Char`;
* fallible operations (Python `list.index` on a missing element, indexing
  an empty list, a failing `assert`) return `Option` / `Except`.
-/

namespace W2l

/-! ### Token resolution (`W2lKenLMDecoder.__init__`, lines 52-62)

Python:
```
self.blank = (
    vocabulary.index("<ctc_blank>")
    if "<ctc_blank>" in vocabulary
    else vocabulary.index("<s>")
)
if "<sep>" in vocabulary:
    self.silence = vocabulary.index("<sep>")
elif "|" in vocabulary:
    self.silence = vocabulary.index("|")
else:
    self.silence = vocabulary.index("</s>")
```
`list.index` returns the first position of the element and raises
`ValueError` when it is absent; we model it as an `Option`-valued lookup. -/

/-- Python `vocabulary.index(tok)`: first position of `tok`, `none` when
absent (Python raises `ValueError`). -/
def pyIndex (vocabulary : List String) (tok : String) : Option ℕ :=
  if tok ∈ vocabulary then some (vocabulary.indexOf tok) else none

/-- Resolution of `self.blank` in `__init__`. -/
def blankIndex (vocabulary : List String) : Option ℕ :=
  if "<ctc_blank>" ∈ vocabulary then pyIndex vocabulary "<ctc_blank>"
  else pyIndex vocabulary "<s>"

/-- Resolution of `self.silence` in `__init__`. -/
def silenceIndex (vocabulary : List String) : Option ℕ :=
  if "<sep>" ∈ vocabulary then pyIndex vocabulary "<sep>"
  else if "|" ∈ vocabulary then pyIndex vocabulary "|"
  else pyIndex vocabulary "</s>"

/-- `i` is the position of the first occurrence of `a` in `l`. -/
def firstPos (l : List String) (a : String) (i : ℕ) : Prop :=
  l.get? i = some a ∧ ∀ j < i, l.get? j ≠ some a

/-! ### Decoder options (`__init__`, lines 69-79)

Python:
```
decoderOpts = LexiconDecoderOptions(
    beam_size=15,
    beam_size_token=len(vocabulary),
    beam_threshold=25.0,
    lm_weight=lm_weight,
    word_score=word_score,
    unk_score=-np.inf,
    sil_score=sil_score,
    log_add=False,
    criterion_type=CriterionType.CTC,
)
```
We embed the six tuning fields the spec discusses (`unk_score = -inf`,
`log_add` and `criterion_type` are constants irrelevant to the claims). -/

structure LexiconDecoderOptions where
  beam_size : ℕ
  beam_size_token : ℕ
  beam_threshold : ℚ
  lm_weight : ℚ
  word_score : ℚ
  sil_score : ℚ
deriving DecidableEq

/-- The options record built by `W2lKenLMDecoder.__init__` from its caller
arguments.  Only `lm_weight`, `word_score` and `sil_score` are constructor
parameters of `W2lKenLMDecoder`; the beam parameters are literals / derived. -/
def decoderOpts (vocabulary : List String) (lm_weight word_score sil_score : ℚ) :
    LexiconDecoderOptions :=
  { beam_size := 15
    beam_size_token := vocabulary.length
    beam_threshold := 25
    lm_weight := lm_weight
    word_score := word_score
    sil_score := sil_score }

/-! ### Trie construction (`_initializeTrie`, lines 92-111)

Python:
```
trie = Trie(len(vocabulary), self.silence)
startState = languageModel.start(False)
unkWord = vocabulary.index("<unk>")
for word, spellings in lexicon.items():
    wordIdx = self._wordDict.get_index(word)
    _, score = languageModel.score(startState, wordIdx)
    for spelling in spellings:
        spellingIdxs = [vocabulary.index(token.lower()) for token in spelling]
        assert (
            unkWord not in spellingIdxs
        ), f"Some tokens in spelling ... were unknown: ..."
        trie.insert(spellingIdxs, wordIdx, score)
trie.smear(SmearingMode.MAX)
```
The flashlight `Trie` is an external collaborator; we record the sequence of
successful `insert` calls.  The word dictionary and LM are abstract
parameters (`getWordIndex`, `lmScore`).  The lexicon dict iterates in
insertion order, modelled as an association list. -/

/-- Python `str.lower()` (character-wise, as used on vocabulary tokens). -/
def pyLower (s : String) : String := ⟨s.data.map Char.toLower⟩

/-- `[vocabulary.index(token.lower()) for token in spelling]`: `none` when
some token's lowercase form is absent from the vocabulary. -/
def spellingIdxs (vocabulary : List String) (spelling : List String) :
    Option (List ℕ) :=
  spelling.mapM (fun token => pyIndex vocabulary (pyLower token))

/-- One recorded `trie.insert(spellingIdxs, wordIdx, score)` call. -/
structure TrieInsert where
  spellingIdxs : List ℕ
  wordIdx : ℕ
  score : ℚ
deriving DecidableEq

/-- Body of the inner `for spelling in spellings` loop: map the spelling to
indices (`ValueError` → error) and run the `assert` against `unkWord`. -/
def insertSpelling (vocabulary : List String) (unkWord wordIdx : ℕ) (score : ℚ)
    (inserts : List TrieInsert) (spelling : List String) :
    Except String (List TrieInsert) :=
  match spellingIdxs vocabulary spelling with
  | none => Except.error "ValueError: token not in vocabulary"
  | some idxs =>
      if unkWord ∈ idxs then
        Except.error "AssertionError: some tokens in spelling were unknown"
      else
        Except.ok (inserts ++ [⟨idxs, wordIdx, score⟩])

/-- `W2lKenLMDecoder._initializeTrie`: returns the list of trie insertions,
or an error when construction raises (missing `<unk>`, a spelling token
absent from the vocabulary, or the unknown-token `assert` firing).
The terminal `trie.smear(SmearingMode.MAX)` call is external state on the
flashlight trie and adds no insertions. -/
def initializeTrie (vocabulary : List String) (getWordIndex : String → ℕ)
    (lmScore : ℕ → ℚ) (lexicon : List (String × List (List String))) :
    Except String (List TrieInsert) :=
  match pyIndex vocabulary "<unk>" with
  | none => Except.error "ValueError: <unk> not in vocabulary"
  | some unkWord =>
      lexicon.foldlM
        (fun inserts ws =>
          let wordIdx := getWordIndex ws.1
          let score := lmScore wordIdx
          ws.2.foldlM (insertSpelling vocabulary unkWord wordIdx score) inserts)
        []

/-! ### Frame-span scan (`_getWordsFrames`, lines 182-198)

Python:
```
timesteps = []
wordFrames = []
wordFound = 0
for i, tokenIdx in enumerate(tokenIdxs):
    if tokenIdx == self.blank:
        continue
    elif tokenIdx != tokenIdxs[i - 1] and tokenIdx != self.silence:
        wordFound = 1
        wordFrames.append(i)
    elif wordFound and tokenIdx != self.silence:
        wordFrames.append(i)
    elif tokenIdx == self.silence and wordFound:
        timesteps.append(wordFrames)
        wordFound = 0
        wordFrames = []
return timesteps
```
Note `tokenIdxs[i - 1]` at `i = 0` is Python negative indexing: the LAST
element of the alignment. -/

structure ScanState where
  timesteps : List (List ℕ)
  wordFrames : List ℕ
  wordFound : Bool
deriving DecidableEq

def initScan : ScanState := ⟨[], [], false⟩

/-- One iteration of the `for i, tokenIdx in enumerate(tokenIdxs)` loop:
`prev` is `tokenIdxs[i - 1]`, `tok` is `tokenIdxs[i]`. -/
def scanStep (blank silence prev tok i : ℕ) (st : ScanState) : ScanState :=
  if tok = blank then st
  else if tok ≠ prev ∧ tok ≠ silence then
    ⟨st.timesteps, st.wordFrames ++ [i], true⟩
  else if st.wordFound ∧ tok ≠ silence then
    ⟨st.timesteps, st.wordFrames ++ [i], st.wordFound⟩
  else if tok = silence ∧ st.wordFound then
    ⟨st.timesteps ++ [st.wordFrames], [], false⟩
  else st

/-- Python `tokenIdxs[i - 1]` for `0 ≤ i < len(tokenIdxs)`: the previous
element, wrapping to the last element at `i = 0`. -/
def prevTok (tokenIdxs : List ℕ) (i : ℕ) : ℕ :=
  if i = 0 then (tokenIdxs.getLast?).getD 0 else tokenIdxs.getD (i - 1) 0

/-- The scan state after the whole loop of `_getWordsFrames`. -/
def scanAlignment (blank silence : ℕ) (tokenIdxs : List ℕ) : ScanState :=
  (List.range tokenIdxs.length).foldl
    (fun st i => scanStep blank silence (prevTok tokenIdxs i) (tokenIdxs.getD i 0) i st)
    initScan

/-- `W2lKenLMDecoder._getWordsFrames`. -/
def getWordsFrames (blank silence : ℕ) (tokenIdxs : List ℕ) : List (List ℕ) :=
  (scanAlignment blank silence tokenIdxs).timesteps

/-! ### Frame-to-time conversion (`frameSize`, `_getTimeInterval`,
`_getFrameTime`, `_extendFramesToBoundaries`, lines 49 and 200-209) -/

/-- `self.frameSize = 0.02` (seconds per frame). -/
def frameSize : ℚ := 2 / 100

/-- `W2lKenLMDecoder._getFrameTime`. -/
def getFrameTime (frame : ℕ) : ℚ := frame * frameSize

/-- `W2lKenLMDecoder._extendFramesToBoundaries`. -/
def extendFramesToBoundaries (b e : ℚ) : ℚ × ℚ := (b, e + frameSize)

/-- `W2lKenLMDecoder._getTimeInterval`: indexes `frames[0]` and
`frames[len(frames) - 1]`, so it fails (Python `IndexError`) on `[]`. -/
def getTimeInterval (frames : List ℕ) : Option (ℚ × ℚ) :=
  match frames with
  | [] => none
  | f :: rest =>
      some (extendFramesToBoundaries (getFrameTime f)
        (getFrameTime ((f :: rest).getLast (by simp))))

/-! ### Timestamps and hypothesis post-processing
(`_getWordTimestamps`, `process_word_piece`, `_postProcessHypothesis`,
lines 141-180) -/

/-- `W2lKenLMDecoder._getWordTimestamps`: the frame runs together with the
loop-accumulated interval list (one `_getTimeInterval` per run, appended in
order). -/
def getWordTimestamps (blank silence : ℕ) (tokenIdxs : List ℕ) :
    List (List ℕ) × List (Option (ℚ × ℚ)) :=
  let wordFrames := getWordsFrames blank silence tokenIdxs
  (wordFrames, wordFrames.foldl (fun acc frame => acc ++ [getTimeInterval frame]) [])

/-- Python `str.split()` helper: split on whitespace runs, dropping empty
segments, accumulator `acc` holds the current word reversed. -/
def splitWsAux : List Char → List Char → List (List Char)
  | [], [] => []
  | [], acc => [acc.reverse]
  | c :: cs, acc =>
      if c.isWhitespace then
        if acc = [] then splitWsAux cs []
        else acc.reverse :: splitWsAux cs []
      else splitWsAux cs (c :: acc)

/-- Python `str.split()` (no argument): whitespace-run split. -/
def splitWs (s : List Char) : List (List Char) := splitWsAux s []

/-- Python `str.replace("_", " ")`. -/
def replaceUnderscore (s : List Char) : List Char :=
  s.map (fun c => if c = '_' then ' ' else c)

/-- `W2lKenLMDecoder.process_word_piece`:
`"".join(words).replace("_", " ").split()`. -/
def process_word_piece (words : List (List Char)) : List (List Char) :=
  splitWs (replaceUnderscore words.flatten)

/-- One flashlight `DecodeResult` as consumed by post-processing: the raw
token alignment, the word-id sequence and the score. -/
structure DecodeResult where
  tokens : List ℕ
  words : List ℤ
  score : ℚ

/-- The word-id lookup of `_postProcessHypothesis`:
`[self._wordDict.get_entry(x) for x in result.words if x >= 0]`. -/
def lookupWords (getEntry : ℕ → List Char) (words : List ℤ) : List (List Char) :=
  (words.filter (fun x => 0 ≤ x)).map (fun x => getEntry x.toNat)

/-- The per-result word list assembled by `_postProcessHypothesis`: the
looked-up entries in word mode, `process_word_piece` of them in sub-word
mode (in the source both are then joined with single spaces into one
string; the claims count words, so we keep the list form). -/
def assembledWords (subwords : Bool) (getEntry : ℕ → List Char)
    (words : List ℤ) : List (List Char) :=
  if subwords then process_word_piece (lookupWords getEntry words)
  else lookupWords getEntry words

/-- The loop body of `_postProcessHypothesis` (`for result in hypotesis`):
append the assembled words, frame runs, score and interval list of one
result to the four accumulators. -/
def postProcessStep (subwords : Bool) (getEntry : ℕ → List Char)
    (blank silence : ℕ)
    (acc : List (List (List Char)) × List (List (List ℕ)) × List ℚ ×
      List (List (Option (ℚ × ℚ)))) (result : DecodeResult) :
    List (List (List Char)) × List (List (List ℕ)) × List ℚ ×
      List (List (Option (ℚ × ℚ))) :=
  let ws := assembledWords subwords getEntry result.words
  let ft := getWordTimestamps blank silence result.tokens
  (acc.1 ++ [ws], acc.2.1 ++ [ft.1], acc.2.2.1 ++ [result.score],
    acc.2.2.2 ++ [ft.2])

/-- `W2lKenLMDecoder._postProcessHypothesis`: for each result of the
hypothesis, the assembled words, the frame runs, the score, and the
time-interval list. -/
def postProcessHypothesis (subwords : Bool) (getEntry : ℕ → List Char)
    (blank silence : ℕ) (hypothesis : List DecodeResult) :
    List (List (List Char)) × List (List (List ℕ)) × List ℚ ×
      List (List (Option (ℚ × ℚ))) :=
  hypothesis.foldl (postProcessStep subwords getEntry blank silence)
    ([], [], [], [])

/-! ## Helper lemmas -/

/-- The first position of a member, as computed by `List.indexOf`. -/
lemma indexOf_firstPos (l : List String) (a : String) (h : a ∈ l) :
    firstPos l a (l.indexOf a) := by
  induction l with
  | nil => cases h
  | cons b t ih =>
      by_cases hba : b = a
      · subst hba
        simp [firstPos, List.indexOf_cons_self]
      · have hat : a ∈ t := by
          rcases List.mem_cons.mp h with h1 | h1
          · exact absurd h1.symm hba
          · exact h1
        have hidx : (b :: t).indexOf a = t.indexOf a + 1 := by
          simp [List.indexOf_cons, hba]
        rcases ih hat with ⟨hget, hmin⟩
        refine ⟨by simpa [hidx] using hget, ?_⟩
        intro j hj
        rw [hidx] at hj
        cases j with
        | zero => simpa using hba
        | succ k =>
            have : k < t.indexOf a := Nat.lt_of_succ_lt_succ hj
            simpa using hmin k this

/-- Indexed invariant for a fold over `List.range n`. -/
lemma foldl_range_inv {β : Type} (P : ℕ → β → Prop) (f : β → ℕ → β) (n : ℕ)
    (h : ∀ st i, i < n → P i st → P (i + 1) (f st i)) (b : β) (hb : P 0 b) :
    P n ((List.range n).foldl f b) := by
  induction n with
  | zero => simpa using hb
  | succ m ih =>
      rw [List.range_succ, List.foldl_append]
      exact h _ m (Nat.lt_succ_self m)
        (ih (fun st i hi hP => h st i (Nat.lt_succ_of_lt hi) hP))

/-- A loop that appends `g x` for each `x` builds the map of `g`. -/
lemma foldl_append_map {α β : Type} (g : α → β) (l : List α) (acc : List β) :
    l.foldl (fun acc x => acc ++ [g x]) acc = acc ++ l.map g := by
  induction l generalizing acc with
  | nil => simp
  | cons a t ih => simp [ih]

/-- `_getWordTimestamps` emits one `_getTimeInterval` per frame run, in run
order. -/
lemma getWordTimestamps_snd (blank silence : ℕ) (tokenIdxs : List ℕ) :
    (getWordTimestamps blank silence tokenIdxs).2 =
      (getWordsFrames blank silence tokenIdxs).map getTimeInterval := by
  simpa [getWordTimestamps] using
    foldl_append_map getTimeInterval (getWordsFrames blank silence tokenIdxs) []

/-- An `Option`-valued `mapM` that succeeds succeeds on every element. -/
lemma mapM_some_of_mem {α β : Type} (f : α → Option β) :
    ∀ (l : List α) (r : List β), l.mapM f = some r →
      ∀ a ∈ l, ∃ b, f a = some b ∧ b ∈ r := by
  intro l
  induction l with
  | nil => intro r _ a ha; cases ha
  | cons c t ih =>
      intro r hr a ha
      rw [List.mapM_cons] at hr
      cases hc : f c with
      | none => rw [hc] at hr; simp at hr
      | some b0 =>
          rw [hc] at hr
          cases ht : t.mapM f with
          | none => rw [ht] at hr; simp at hr
          | some r0 =>
              rw [ht] at hr
              simp at hr
              rcases List.mem_cons.mp ha with h1 | h1
              · subst h1
                exact ⟨b0, hc, by simp [← hr]⟩
              · rcases ih r0 ht a h1 with ⟨b, hb, hbr⟩
                exact ⟨b, hb, by simp [← hr, hbr]⟩

/-- An `Option`-valued `mapM` fails when some element fails. -/
lemma mapM_none_of_mem {α β : Type} (f : α → Option β) :
    ∀ (l : List α), ∀ a ∈ l, f a = none → l.mapM f = none := by
  intro l
  induction l with
  | nil => intro a ha; cases ha
  | cons c t ih =>
      intro a ha hfa
      rw [List.mapM_cons]
      rcases List.mem_cons.mp ha with h1 | h1
      · subst h1; rw [hfa]; rfl
      · cases hc : f c with
        | none => rfl
        | some b0 => rw [ih a h1 hfa]; rfl

/-- An `Except` fold errors when some element errors on every accumulator. -/
lemma foldlM_error {ε α β : Type} (f : β → α → Except ε β) :
    ∀ (l : List α) (a : α), a ∈ l →
      (∀ b, ∃ e, f b a = Except.error e) →
      ∀ b, ∃ e, l.foldlM f b = Except.error e := by
  intro l
  induction l with
  | nil => intro a ha; cases ha
  | cons c t ih =>
      intro a ha hf b
      rw [List.foldlM_cons]
      rcases List.mem_cons.mp ha with h1 | h1
      · subst h1
        rcases hf b with ⟨e, he⟩
        exact ⟨e, by rw [he]; rfl⟩
      · cases hc : f b c with
        | error e => exact ⟨e, rfl⟩
        | ok b' =>
            rcases ih a h1 hf b' with ⟨e, he⟩
            exact ⟨e, by simpa using he⟩

/-- Replacing underscores leaves an underscore-free string unchanged. -/
lemma replaceUnderscore_of_clean (w : List Char) (h : ∀ c ∈ w, c ≠ '_') :
    replaceUnderscore w = w := by
  induction w with
  | nil => rfl
  | cons c t ih =>
      have hc : c ≠ '_' := h c (List.mem_cons_self c t)
      have ht := ih (fun x hx => h x (List.mem_cons_of_mem c hx))
      show (if c = '_' then ' ' else c) :: replaceUnderscore t = c :: t
      rw [if_neg hc, ht]

/-- Scanning past a whitespace-free prefix accumulates it (reversed). -/
lemma splitWsAux_nonws_prefix (w : List Char) (hw : ∀ c ∈ w, ¬c.isWhitespace) :
    ∀ (s acc : List Char),
      splitWsAux (w ++ s) acc = splitWsAux s (w.reverse ++ acc) := by
  induction w with
  | nil => intro s acc; simp
  | cons c t ih =>
      intro s acc
      have hc : ¬c.isWhitespace := hw c (List.mem_cons_self c t)
      have ht : ∀ x ∈ t, ¬x.isWhitespace :=
        fun x hx => hw x (List.mem_cons_of_mem c hx)
      simp [splitWsAux, hc, ih ht]

/-- A nonempty whitespace-free string splits to itself. -/
lemma splitWs_single (w : List Char) (hne : w ≠ [])
    (hw : ∀ c ∈ w, ¬c.isWhitespace) : splitWs w = [w] := by
  have := splitWsAux_nonws_prefix w hw [] []
  simp at this
  rw [splitWs, this]
  have : w.reverse ≠ [] := by simpa using hne
  cases hr : w.reverse with
  | nil => exact absurd hr this
  | cons c t =>
      have : (c :: t).reverse = w := by rw [← hr]; simp
      simp [splitWsAux, this]

/-- Invariant of the `_getWordsFrames` loop: a set `wordFound` flag implies
a non-empty in-progress run, and every committed run is non-empty. -/
def runsNonempty (st : ScanState) : Prop :=
  (st.wordFound = true → st.wordFrames ≠ []) ∧ ∀ r ∈ st.timesteps, r ≠ []

lemma scanStep_runsNonempty (blank silence prev tok i : ℕ) (st : ScanState)
    (h : runsNonempty st) :
    runsNonempty (scanStep blank silence prev tok i st) := by
  rcases h with ⟨h1, h2⟩
  unfold scanStep runsNonempty
  split_ifs with hb hn hc hs
  · exact ⟨h1, h2⟩
  · exact ⟨fun _ => by simp, h2⟩
  · exact ⟨fun _ => by simp, h2⟩
  · refine ⟨fun hf => (nomatch hf), fun r hr => ?_⟩
    rcases List.mem_append.mp hr with h | h
    · exact h2 r h
    · have : r = st.wordFrames := by simpa using h
      rw [this]
      exact h1 hs.2
  · exact ⟨h1, h2⟩

/-! ## Claim theorems -/

/-- C2: for every non-empty frame run with first frame `f` and last frame
`l`, `_getTimeInterval` returns exactly `(f * 0.02, l * 0.02 + 0.02)`
seconds — a fixed 20 ms per-frame duration with the end boundary extended
by one extra frame duration. -/
theorem getTimeInterval_frame_times (frames : List ℕ) (f l : ℕ)
    (hf : frames.head? = some f) (hl : frames.getLast? = some l) :
    getTimeInterval frames = some (f * (2/100 : ℚ), l * (2/100 : ℚ) + 2/100) := by
  cases frames with
  | nil => cases hf
  | cons a rest =>
      have ha : a = f := by simpa using hf
      subst ha
      have hlast : (a :: rest).getLast (by simp) = l := by
        have h2 := List.getLast?_eq_getLast (a :: rest) (by simp)
        rw [h2] at hl
        exact Option.some.inj hl
      simp [getTimeInterval, extendFramesToBoundaries, getFrameTime, frameSize,
        hlast]

/-- Witness for `getTimeInterval_frame_times` at the run `[3, 5]`. -/
theorem getTimeInterval_frame_times_witness :
    ([3, 5] : List ℕ).head? = some 3 ∧ ([3, 5] : List ℕ).getLast? = some 5 ∧
    getTimeInterval [3, 5] = some (3 * (2/100 : ℚ), 5 * (2/100 : ℚ) + 2/100) :=
  ⟨rfl, by simp, getTimeInterval_frame_times [3, 5] 3 5 rfl (by simp)⟩

/-- C3: the blank index resolves to the position of `<ctc_blank>` when
present, to the position of `<s>` otherwise, and the silence index resolves
by the fallback chain `<sep>`, then `|`, then `</s>` (first one present). -/
theorem tokenResolution (vocabulary : List String) :
    ("<ctc_blank>" ∈ vocabulary →
      ∃ i, blankIndex vocabulary = some i ∧ firstPos vocabulary "<ctc_blank>" i) ∧
    ("<ctc_blank>" ∉ vocabulary → "<s>" ∈ vocabulary →
      ∃ i, blankIndex vocabulary = some i ∧ firstPos vocabulary "<s>" i) ∧
    ("<sep>" ∈ vocabulary →
      ∃ i, silenceIndex vocabulary = some i ∧ firstPos vocabulary "<sep>" i) ∧
    ("<sep>" ∉ vocabulary → "|" ∈ vocabulary →
      ∃ i, silenceIndex vocabulary = some i ∧ firstPos vocabulary "|" i) ∧
    ("<sep>" ∉ vocabulary → "|" ∉ vocabulary → "</s>" ∈ vocabulary →
      ∃ i, silenceIndex vocabulary = some i ∧ firstPos vocabulary "</s>" i) := by
  refine ⟨fun h => ?_, fun h1 h2 => ?_, fun h => ?_, fun h1 h2 => ?_,
    fun h1 h2 h3 => ?_⟩
  · exact ⟨vocabulary.indexOf "<ctc_blank>",
      by simp [blankIndex, pyIndex, h], indexOf_firstPos vocabulary _ h⟩
  · exact ⟨vocabulary.indexOf "<s>",
      by simp [blankIndex, pyIndex, h1, h2], indexOf_firstPos vocabulary _ h2⟩
  · exact ⟨vocabulary.indexOf "<sep>",
      by simp [silenceIndex, pyIndex, h], indexOf_firstPos vocabulary _ h⟩
  · exact ⟨vocabulary.indexOf "|",
      by simp [silenceIndex, pyIndex, h1, h2], indexOf_firstPos vocabulary _ h2⟩
  · exact ⟨vocabulary.indexOf "</s>",
      by simp [silenceIndex, pyIndex, h1, h2, h3], indexOf_firstPos vocabulary _ h3⟩

/-- Witness for `tokenResolution` on the vocabulary
`["x", "<ctc_blank>", "<s>", "|", "</s>"]` (blank via `<ctc_blank>`,
silence via the `|` fallback). -/
theorem tokenResolution_witness :
    (∃ i, blankIndex ["x", "<ctc_blank>", "<s>", "|", "</s>"] = some i ∧
      firstPos ["x", "<ctc_blank>", "<s>", "|", "</s>"] "<ctc_blank>" i) ∧
    (∃ i, silenceIndex ["x", "<ctc_blank>", "<s>", "|", "</s>"] = some i ∧
      firstPos ["x", "<ctc_blank>", "<s>", "|", "</s>"] "|" i) :=
  ⟨(tokenResolution ["x", "<ctc_blank>", "<s>", "|", "</s>"]).1 (by decide),
   (tokenResolution ["x", "<ctc_blank>", "<s>", "|", "</s>"]).2.2.2.1
     (by decide) (by decide)⟩

/-- C6 counterexample: the decoder options do not carry caller-supplied
values for all six tuning parameters.  At a construction call whose caller
arguments are all `3` (over a two-token vocabulary), the options still hold
`beam_size = 15`, `beam_threshold = 25` and `beam_size_token = 2`: those
three are hardcoded / derived, not caller-supplied. -/
theorem decoderOpts_not_all_caller_supplied :
    (decoderOpts ["a", "b"] 3 3 3).beam_size = 15 ∧ (15 : ℕ) ≠ 3 ∧
    (decoderOpts ["a", "b"] 3 3 3).beam_threshold = 25 ∧ (25 : ℚ) ≠ 3 ∧
    (decoderOpts ["a", "b"] 3 3 3).beam_size_token = 2 ∧ (2 : ℕ) ≠ 3 :=
  ⟨rfl, by decide, rfl, by norm_num, rfl, by decide⟩

/-- C6 (amended): the three caller-supplied tuning parameters `lm_weight`,
`word_score`, `sil_score` are carried into the decoder options unchanged,
while `beam_size` is fixed at 15, `beam_threshold` at 25.0, and
`beam_size_token` equals the vocabulary size. -/
theorem decoderOpts_fields (vocabulary : List String)
    (lm_weight word_score sil_score : ℚ) :
    (decoderOpts vocabulary lm_weight word_score sil_score).lm_weight = lm_weight ∧
    (decoderOpts vocabulary lm_weight word_score sil_score).word_score = word_score ∧
    (decoderOpts vocabulary lm_weight word_score sil_score).sil_score = sil_score ∧
    (decoderOpts vocabulary lm_weight word_score sil_score).beam_size = 15 ∧
    (decoderOpts vocabulary lm_weight word_score sil_score).beam_threshold = 25 ∧
    (decoderOpts vocabulary lm_weight word_score sil_score).beam_size_token =
      vocabulary.length :=
  ⟨rfl, rfl, rfl, rfl, rfl, rfl⟩

/-- C10: every frame run emitted by `_getWordsFrames` is non-empty, so
`_getTimeInterval` — which indexes the run's first and last elements —
succeeds on every output of the scan. -/
theorem getWordsFrames_runs_nonempty (blank silence : ℕ) (tokenIdxs : List ℕ) :
    (∀ r ∈ getWordsFrames blank silence tokenIdxs, r ≠ []) ∧
    (∀ r ∈ getWordsFrames blank silence tokenIdxs, (getTimeInterval r).isSome) := by
  have key : runsNonempty (scanAlignment blank silence tokenIdxs) :=
    foldl_range_inv (fun _ st => runsNonempty st)
      (fun st i =>
        scanStep blank silence (prevTok tokenIdxs i) (tokenIdxs.getD i 0) i st)
      tokenIdxs.length
      (fun st i _ h => scanStep_runsNonempty _ _ _ _ _ _ h)
      initScan ⟨by simp [initScan], by simp [initScan]⟩
  refine ⟨fun r hr => key.2 r hr, fun r hr => ?_⟩
  have hne := key.2 r hr
  cases r with
  | nil => exact absurd rfl hne
  | cons f rest => simp [getTimeInterval]

/-- Witness for `getWordsFrames_runs_nonempty` on the alignment `[2, 1]`
(blank 0, silence 1), whose single committed run is `[0]`. -/
theorem getWordsFrames_runs_nonempty_witness :
    ([0] : List ℕ) ≠ [] ∧ (getTimeInterval [0]).isSome :=
  ⟨(getWordsFrames_runs_nonempty 0 1 [2, 1]).1 [0] (by decide),
   (getWordsFrames_runs_nonempty 0 1 [2, 1]).2 [0] (by decide)⟩

/-- C9: a frame run is emitted only when closed by a silence token — an
alignment with no silence yields no runs, and every frame inside any
emitted run is strictly followed by a silence frame, so frames after the
last silence (the in-progress run) are discarded. -/
theorem trailing_frames_discarded (blank silence : ℕ) (tokenIdxs : List ℕ) :
    (silence ∉ tokenIdxs → getWordsFrames blank silence tokenIdxs = []) ∧
    (∀ r ∈ getWordsFrames blank silence tokenIdxs, ∀ i ∈ r,
      ∃ j, i < j ∧ j < tokenIdxs.length ∧ tokenIdxs.getD j 0 = silence) := by
  constructor
  · intro hsil
    have key : (scanAlignment blank silence tokenIdxs).timesteps = [] := by
      refine foldl_range_inv (fun _ st => st.timesteps = [])
        (fun st i =>
          scanStep blank silence (prevTok tokenIdxs i) (tokenIdxs.getD i 0) i st)
        tokenIdxs.length ?_ initScan rfl
      intro st i hi hts
      have htok : tokenIdxs.getD i 0 ≠ silence := by
        intro he
        apply hsil
        rw [← he]
        rw [List.getD_eq_getElem tokenIdxs 0 hi]
        exact List.getElem_mem hi
      dsimp only
      unfold scanStep
      split_ifs with hb hn hc hs
      · exact hts
      · exact hts
      · exact hts
      · exact absurd hs.1 htok
      · exact hts
    exact key
  · have key := foldl_range_inv
      (fun k st => (∀ i ∈ st.wordFrames, i < k) ∧
        (∀ r ∈ st.timesteps, ∀ i ∈ r,
          ∃ j, i < j ∧ j < tokenIdxs.length ∧ tokenIdxs.getD j 0 = silence))
      (fun st i =>
        scanStep blank silence (prevTok tokenIdxs i) (tokenIdxs.getD i 0) i st)
      tokenIdxs.length ?_ initScan ⟨by simp [initScan], by simp [initScan]⟩
    · exact key.2
    · intro st i hi hP
      rcases hP with ⟨hwf, hts⟩
      dsimp only
      unfold scanStep
      split_ifs with hb hn hc hs
      · exact ⟨fun x hx => Nat.lt_succ_of_lt (hwf x hx), hts⟩
      · refine ⟨fun x hx => ?_, hts⟩
        rcases List.mem_append.mp hx with h | h
        · exact Nat.lt_succ_of_lt (hwf x h)
        · have : x = i := by simpa using h
          rw [this]; exact Nat.lt_succ_self i
      · refine ⟨fun x hx => ?_, hts⟩
        rcases List.mem_append.mp hx with h | h
        · exact Nat.lt_succ_of_lt (hwf x h)
        · have : x = i := by simpa using h
          rw [this]; exact Nat.lt_succ_self i
      · refine ⟨by simp, fun r hr x hx => ?_⟩
        rcases List.mem_append.mp hr with h | h
        · exact hts r h x hx
        · have hrw : r = st.wordFrames := by simpa using h
          rw [hrw] at hx
          exact ⟨i, hwf x hx, hi, hs.1⟩
      · exact ⟨fun x hx => Nat.lt_succ_of_lt (hwf x hx), hts⟩

/-- Witness for `trailing_frames_discarded`: the silence-free alignment
`[2, 3]` yields no runs, and in `[2, 1]` the emitted frame `0` is followed
by the silence at position `1`. -/
theorem trailing_frames_discarded_witness :
    getWordsFrames 0 1 [2, 3] = [] ∧
    (∃ j, 0 < j ∧ j < 2 ∧ ([2, 1] : List ℕ).getD j 0 = 1) :=
  ⟨(trailing_frames_discarded 0 1 [2, 3]).1 (by decide),
   by
    have h := (trailing_frames_discarded 0 1 [2, 1]).2 [0] (by decide) 0 (by decide)
    simpa using h⟩

/-- C8: at frame 0 the scan compares the first token against the
alignment's LAST token (Python `tokenIdxs[i - 1]` at `i = 0`): for a
non-blank, non-silence first token, the first iteration starts a run at
frame 0 iff the first token differs from the last token; when they are
equal, frame 0 is silently omitted from every run the scan emits. -/
theorem frame_zero_compares_last (blank silence t0 : ℕ) (rest : List ℕ)
    (h0b : t0 ≠ blank) (h0s : t0 ≠ silence) :
    (scanStep blank silence (prevTok (t0 :: rest) 0) ((t0 :: rest).getD 0 0) 0
        initScan =
      if t0 = (t0 :: rest).getLast (List.cons_ne_nil t0 rest) then initScan
      else ⟨[], [0], true⟩) ∧
    (t0 = (t0 :: rest).getLast (List.cons_ne_nil t0 rest) →
      ∀ r ∈ getWordsFrames blank silence (t0 :: rest), 0 ∉ r) := by
  have hprev : prevTok (t0 :: rest) 0 =
      (t0 :: rest).getLast (List.cons_ne_nil t0 rest) := by
    simp [prevTok, List.getLast?_eq_getLast]
  have htok : (t0 :: rest).getD 0 0 = t0 := rfl
  have hstep0 : scanStep blank silence (prevTok (t0 :: rest) 0)
      ((t0 :: rest).getD 0 0) 0 initScan =
      if t0 = (t0 :: rest).getLast (List.cons_ne_nil t0 rest) then initScan
      else ⟨[], [0], true⟩ := by
    rw [hprev, htok]
    by_cases hEq : t0 = (t0 :: rest).getLast (List.cons_ne_nil t0 rest)
    · rw [if_pos hEq, ← hEq]
      simp [scanStep, h0b, h0s, initScan]
    · rw [if_neg hEq]
      simp [scanStep, h0b, h0s, hEq, initScan]
  refine ⟨hstep0, fun hEq r hr => ?_⟩
  have key := foldl_range_inv
    (fun k st => ((∀ fr ∈ st.wordFrames, 0 < fr) ∧
        (∀ r ∈ st.timesteps, 0 ∉ r)) ∧ (k = 0 → st = initScan))
    (fun st i => scanStep blank silence (prevTok (t0 :: rest) i)
      ((t0 :: rest).getD i 0) i st)
    (t0 :: rest).length ?_ initScan
    ⟨⟨by simp [initScan], by simp [initScan]⟩, fun _ => rfl⟩
  · intro h0r
    have := key.1.2 r hr h0r
    exact this
  · intro st i hi hP
    by_cases hi0 : i = 0
    · subst hi0
      rw [hP.2 rfl]
      dsimp only
      rw [hstep0, if_pos hEq]
      exact ⟨⟨by simp [initScan], by simp [initScan]⟩, fun h => (nomatch h)⟩
    · have hpos : 0 < i := Nat.pos_of_ne_zero hi0
      rcases hP with ⟨⟨hwf, hts⟩, _⟩
      refine ⟨?_, fun h => absurd h (Nat.succ_ne_zero i)⟩
      dsimp only
      unfold scanStep
      split_ifs with hb hn hc hs
      · exact ⟨hwf, hts⟩
      · refine ⟨fun x hx => ?_, hts⟩
        rcases List.mem_append.mp hx with h | h
        · exact hwf x h
        · have : x = i := by simpa using h
          rw [this]; exact hpos
      · refine ⟨fun x hx => ?_, hts⟩
        rcases List.mem_append.mp hx with h | h
        · exact hwf x h
        · have : x = i := by simpa using h
          rw [this]; exact hpos
      · refine ⟨by simp, fun r hr => ?_⟩
        rcases List.mem_append.mp hr with h | h
        · exact hts r h
        · have hrw : r = st.wordFrames := by simpa using h
          rw [hrw]
          intro h0
          exact absurd (hwf 0 h0) (lt_irrefl 0)
      · exact ⟨hwf, hts⟩

/-- Witness for `frame_zero_compares_last` on the alignment
`[2, 1, 3, 1, 2]` (blank 0, silence 1): the first token equals the last
one, so the first iteration leaves the state untouched and frame 0 appears
in no emitted run. -/
theorem frame_zero_compares_last_witness :
    (scanStep 0 1 (prevTok [2, 1, 3, 1, 2] 0) (([2, 1, 3, 1, 2] : List ℕ).getD 0 0)
        0 initScan = initScan) ∧
    (∀ r ∈ getWordsFrames 0 1 [2, 1, 3, 1, 2], 0 ∉ r) := by
  have h := frame_zero_compares_last 0 1 2 [1, 3, 1, 2] (by decide) (by decide)
  refine ⟨?_, h.2 (by decide)⟩
  rw [h.1, if_pos (by decide)]

/-- C1: for a regular token `a` distinct from the blank and silence tokens
(which are themselves distinct), the alignments `[a, a, blank, a, sil]` and
`[a, blank, a, a, sil]` produce the same single-word frame run: exactly one
run each, with the same first frame, the same last frame, and the same time
interval. -/
theorem ctc_collapse_invariance (a blank silence : ℕ)
    (hab : a ≠ blank) (has : a ≠ silence) (hbs : blank ≠ silence) :
    ∃ r1 r2,
      getWordsFrames blank silence [a, a, blank, a, silence] = [r1] ∧
      getWordsFrames blank silence [a, blank, a, a, silence] = [r2] ∧
      r1.head? = r2.head? ∧ r1.getLast? = r2.getLast? ∧
      getTimeInterval r1 = getTimeInterval r2 := by
  refine ⟨[0, 1, 3], [0, 2, 3], ?_, ?_, rfl, rfl, rfl⟩
  · show (scanAlignment blank silence [a, a, blank, a, silence]).timesteps =
      [[0, 1, 3]]
    rw [scanAlignment]
    have hrange : List.range ([a, a, blank, a, silence] : List ℕ).length =
        [0, 1, 2, 3, 4] := rfl
    rw [hrange]
    simp [scanStep, prevTok, initScan, List.getLast?, List.getLast,
      hab, has, Ne.symm hbs]
  · show (scanAlignment blank silence [a, blank, a, a, silence]).timesteps =
      [[0, 2, 3]]
    rw [scanAlignment]
    have hrange : List.range ([a, blank, a, a, silence] : List ℕ).length =
        [0, 1, 2, 3, 4] := rfl
    rw [hrange]
    simp [scanStep, prevTok, initScan, List.getLast?, List.getLast,
      hab, has, Ne.symm hbs]

/-- Witness for `ctc_collapse_invariance` with `a = 2`, blank `0`,
silence `1`. -/
theorem ctc_collapse_invariance_witness :
    ∃ r1 r2,
      getWordsFrames 0 1 [2, 2, 0, 2, 1] = [r1] ∧
      getWordsFrames 0 1 [2, 0, 2, 2, 1] = [r2] ∧
      r1.head? = r2.head? ∧ r1.getLast? = r2.getLast? ∧
      getTimeInterval r1 = getTimeInterval r2 :=
  ctc_collapse_invariance 2 0 1 (by decide) (by decide) (by decide)

/-- A sub-word piece with no whitespace and no marker characters. -/
def cleanPiece (w : List Char) : Prop :=
  w ≠ [] ∧ ∀ c ∈ w, ¬c.isWhitespace ∧ c ≠ '_'

/-- C7 counterexample: `process_word_piece` does not attach a
marker-carrying piece to the previous piece without a space.  On the
pieces `"ab"` and `"_cd"` it yields the two words `["ab", "cd"]` — the
underscore was replaced by a space, i.e. it acts as an explicit word
boundary — not the single attached word `["abcd"]` the claim requires. -/
theorem process_word_piece_marker_splits :
    process_word_piece [['a', 'b'], ['_', 'c', 'd']] = [['a', 'b'], ['c', 'd']] ∧
    ([['a', 'b'], ['c', 'd']] : List (List Char)) ≠ [['a', 'b', 'c', 'd']] :=
  ⟨by decide, by decide⟩

/-- C7 (amended): in sub-word mode, word-string assembly concatenates
consecutive pieces with no separator (so unmarked pieces attach to the
previous piece without a space), replaces every occurrence of the
underscore marker by a space — an explicit word boundary — and re-splits
on whitespace to recover the true words: two clean pieces merge into one
word, and a marker-prefixed piece starts a new word instead. -/
theorem process_word_piece_assembly (a b : List Char)
    (ha : cleanPiece a) (hb : cleanPiece b) :
    process_word_piece [a, b] = [a ++ b] ∧
    process_word_piece [a, '_' :: b] = [a, b] := by
  rcases ha with ⟨hane, hacl⟩
  rcases hb with ⟨hbne, hbcl⟩
  have haw : ∀ c ∈ a, ¬c.isWhitespace := fun c hc => (hacl c hc).1
  have hau : ∀ c ∈ a, c ≠ '_' := fun c hc => (hacl c hc).2
  have hbw : ∀ c ∈ b, ¬c.isWhitespace := fun c hc => (hbcl c hc).1
  have hbu : ∀ c ∈ b, c ≠ '_' := fun c hc => (hbcl c hc).2
  constructor
  · have hfl : ([a, b] : List (List Char)).flatten = a ++ b := by simp
    rw [process_word_piece, hfl, replaceUnderscore_of_clean (a ++ b) ?_]
    · refine splitWs_single (a ++ b) (by simp [hane]) ?_
      intro c hc
      rcases List.mem_append.mp hc with h | h
      exacts [haw c h, hbw c h]
    · intro c hc
      rcases List.mem_append.mp hc with h | h
      exacts [hau c h, hbu c h]
  · have hfl : ([a, '_' :: b] : List (List Char)).flatten = a ++ '_' :: b := by
      simp
    rw [process_word_piece, hfl]
    have hrep : replaceUnderscore (a ++ '_' :: b) = a ++ ' ' :: b := by
      have hsplit : replaceUnderscore (a ++ '_' :: b) =
          replaceUnderscore a ++ replaceUnderscore ('_' :: b) := by
        simp [replaceUnderscore]
      have hcons : replaceUnderscore ('_' :: b) = ' ' :: replaceUnderscore b := by
        simp [replaceUnderscore]
      rw [hsplit, hcons, replaceUnderscore_of_clean a hau,
        replaceUnderscore_of_clean b hbu]
    rw [hrep, splitWs, splitWsAux_nonws_prefix a haw (' ' :: b) []]
    have hacc : (a.reverse ++ [] : List Char) ≠ [] := by simpa using hane
    have hws : (' ' : Char).isWhitespace = true := rfl
    rw [show splitWsAux (' ' :: b) (a.reverse ++ []) =
        (a.reverse ++ []).reverse :: splitWsAux b [] from by
      simp only [splitWsAux, hws, if_true, if_neg hacc]]
    have hb1 : splitWsAux b [] = [b] := splitWs_single b hbne hbw
    rw [hb1]
    simp

/-- Witness for `process_word_piece_assembly` at the pieces `"ab"` and
`"cd"`. -/
theorem process_word_piece_assembly_witness :
    process_word_piece [['a', 'b'], ['c', 'd']] = [['a', 'b', 'c', 'd']] ∧
    process_word_piece [['a', 'b'], '_' :: ['c', 'd']] =
      [['a', 'b'], ['c', 'd']] :=
  process_word_piece_assembly ['a', 'b'] ['c', 'd']
    ⟨by decide, by decide⟩ ⟨by decide, by decide⟩

/-- C4: constructing the trie from a lexicon one of whose spellings
contains a token whose (lowercased) form is absent from the vocabulary, or
resolves to the reserved `<unk>` token, fails with an error at construction
time — unknown tokens are never silently dropped. -/
theorem initializeTrie_rejects_unknown (vocabulary : List String)
    (getWordIndex : String → ℕ) (lmScore : ℕ → ℚ)
    (lexicon : List (String × List (List String)))
    (hbad : ∃ ws ∈ lexicon, ∃ spelling ∈ ws.2, ∃ token ∈ spelling,
      pyLower token ∉ vocabulary ∨ pyLower token = "<unk>") :
    ∃ msg, initializeTrie vocabulary getWordIndex lmScore lexicon =
      Except.error msg := by
  rcases hbad with ⟨ws, hws, spelling, hsp, token, htk, hcond⟩
  rw [initializeTrie]
  cases hunk : pyIndex vocabulary "<unk>" with
  | none => exact ⟨_, rfl⟩
  | some unkWord =>
      have hspellBad : ∀ (wordIdx : ℕ) (score : ℚ) (acc : List TrieInsert),
          ∃ e, insertSpelling vocabulary unkWord wordIdx score acc spelling =
            Except.error e := by
        intro wordIdx score acc
        rcases hcond with hmiss | hunkTok
        · have hnone : spellingIdxs vocabulary spelling = none := by
            apply mapM_none_of_mem _ spelling token htk
            simp [pyIndex, hmiss]
          rw [insertSpelling, hnone]
          exact ⟨_, rfl⟩
        · cases hsi : spellingIdxs vocabulary spelling with
          | none => rw [insertSpelling, hsi]; exact ⟨_, rfl⟩
          | some idxs =>
              have hmem : unkWord ∈ idxs := by
                rcases mapM_some_of_mem _ spelling idxs hsi token htk with
                  ⟨b, hb, hbmem⟩
                rw [hunkTok, hunk] at hb
                have hb' : b = unkWord := (Option.some.inj hb).symm
                exact hb' ▸ hbmem
              exact ⟨"AssertionError: some tokens in spelling were unknown",
                by simp [insertSpelling, hsi, hmem]⟩
      have hinner : ∀ acc : List TrieInsert,
          ∃ e, ws.2.foldlM (insertSpelling vocabulary unkWord
            (getWordIndex ws.1) (lmScore (getWordIndex ws.1))) acc =
            Except.error e :=
        foldlM_error _ ws.2 spelling hsp (hspellBad _ _)
      exact foldlM_error
        (fun inserts ws => ws.2.foldlM (insertSpelling vocabulary unkWord
          (getWordIndex ws.1) (lmScore (getWordIndex ws.1))) inserts)
        lexicon ws hws hinner []

/-- Witness for `initializeTrie_rejects_unknown`: the vocabulary
`["a", "b", "<unk>"]` and the lexicon entry `"ab" → [["a", "q"]]`, whose
spelling token `"q"` is not in the vocabulary. -/
theorem initializeTrie_rejects_unknown_witness :
    (∃ ws ∈ ([("ab", [["a", "q"]])] : List (String × List (List String))),
      ∃ spelling ∈ ws.2, ∃ token ∈ spelling,
        pyLower token ∉ ["a", "b", "<unk>"] ∨ pyLower token = "<unk>") ∧
    ∃ msg, initializeTrie ["a", "b", "<unk>"] (fun _ => 0) (fun _ => 0)
      [("ab", [["a", "q"]])] = Except.error msg :=
  ⟨by decide,
   initializeTrie_rejects_unknown ["a", "b", "<unk>"] (fun _ => 0) (fun _ => 0)
     [("ab", [["a", "q"]])] (by decide)⟩

/-- C5 counterexample scaffolding: a word dictionary whose entry 0 is the
sub-word piece `"_a"` and whose other entries are `"b"`. -/
def getEntryC : ℕ → List Char := fun n => if n = 0 then ['_', 'a'] else ['b']

/-- C5 counterexample: in sub-word mode the interval list is NOT aligned
one-to-one with the assembled word list.  For the single decode result with
alignment `[2, 1, 3, 1]` (blank 0, silence 1) and word ids `[0, 1]`, the
pieces `"_a"` and `"b"` join to `"_ab"`, whose underscore becomes a space,
so the assembled word list is the single word `["ab"]` — length 1 — while
the two silence-closed frame runs yield two time intervals: 1 ≠ 2. -/
theorem postProcess_word_interval_mismatch :
    ((postProcessHypothesis true getEntryC 0 1
        [⟨[2, 1, 3, 1], [0, 1], 0⟩]).1.headD []).length = 1 ∧
    ((postProcessHypothesis true getEntryC 0 1
        [⟨[2, 1, 3, 1], [0, 1], 0⟩]).2.2.2.headD []).length = 2 ∧
    (1 : ℕ) ≠ 2 :=
  ⟨rfl, rfl, by decide⟩

/-- `_getWordTimestamps` returns the frame runs of the alignment as its
first component. -/
lemma getWordTimestamps_fst (blank silence : ℕ) (tokenIdxs : List ℕ) :
    (getWordTimestamps blank silence tokenIdxs).1 =
      getWordsFrames blank silence tokenIdxs := rfl

/-- C5 (amended): post-processing produces exactly one time interval per
committed frame run, in run order — the interval list of each result is the
map of `_getTimeInterval` over that result's frame runs — but the interval
count equals the run count, not in general the assembled word count (in
sub-word mode piece-merging changes the number of words). -/
theorem postProcess_one_interval_per_run (subwords : Bool)
    (getEntry : ℕ → List Char) (blank silence : ℕ)
    (hypothesis : List DecodeResult) :
    (postProcessHypothesis subwords getEntry blank silence hypothesis).2.2.2 =
      hypothesis.map (fun result =>
        (getWordsFrames blank silence result.tokens).map getTimeInterval) ∧
    (postProcessHypothesis subwords getEntry blank silence hypothesis).2.1 =
      hypothesis.map (fun result => getWordsFrames blank silence result.tokens) := by
  have key : ∀ (hyp : List DecodeResult) acc,
      (hyp.foldl (postProcessStep subwords getEntry blank silence) acc).2.2.2 =
        acc.2.2.2 ++ hyp.map (fun result =>
          (getWordTimestamps blank silence result.tokens).2) ∧
      (hyp.foldl (postProcessStep subwords getEntry blank silence) acc).2.1 =
        acc.2.1 ++ hyp.map (fun result =>
          (getWordTimestamps blank silence result.tokens).1) := by
    intro hyp
    induction hyp with
    | nil => intro acc; simp
    | cons r t ih =>
        intro acc
        rw [List.foldl_cons]
        rcases ih (postProcessStep subwords getEntry blank silence acc r) with
          ⟨h1, h2⟩
        constructor
        · rw [h1]; simp [postProcessStep]
        · rw [h2]; simp [postProcessStep]
  rcases key hypothesis ([], [], [], []) with ⟨h1, h2⟩
  constructor
  · rw [postProcessHypothesis, h1]
    simp [getWordTimestamps_snd]
  · rw [postProcessHypothesis, h2]
    simp [getWordTimestamps_fst]

end W2l
